import Mathlib

/-!
Verification of `find_paired_rnaseq_transcripts_by_read_alignment.py`
(sandbox/jcrabtree/group_rnaseq_transcripts_by_read_alignment/4-new-script).

The script streams SAM alignment records, accumulates per transcript-pair
coverage as a sorted list of intervals (`add_read_coverage`), deduplicates
the two reads of a mate pair per pair key, and emits each pair key at most
once when it first meets a read-count and bp-coverage threshold.

The development below is a shallow embedding: Python ints become `Int`,
Python lists become `List`, the `pairings` dict becomes an association
list with Python-dict semantics (in-place update of an existing key,
append of a new key, `pop` removal), and the imperative loop in
`add_read_coverage` becomes the structural recursion `insert_scan` that
threads the `insert_done` flag.
-/

/-- One entry of a pair's interval list: the Python tuple
`(read_count, rstart, rend)`.  `count` is the number of alignments that
contributed to the interval; `istart`/`iend` are inclusive reference
coordinates. -/
structure CoverageInterval where
  count : Int
  istart : Int
  iend : Int
deriving DecidableEq, Repr

/-- The `n_reads` total computed by the summation loop at the end of
`add_read_coverage`: the sum of the `read_count` fields. -/
def totalReads : List CoverageInterval → Int
  | [] => 0
  | iv :: rest => iv.count + totalReads rest

/-- The `covered_bp` total computed by the summation loop at the end of
`add_read_coverage`: the sum of `iend - istart + 1` over the list. -/
def totalBp : List CoverageInterval → Int
  | [] => 0
  | iv :: rest => (iv.iend - iv.istart + 1) + totalBp rest

/-- The insertion loop of `add_read_coverage` (the `for i in range(0, ill)`
loop followed by the `if not insert_done` append).  The Boolean argument is
the `insert_done` flag at the current loop position.  Case 2a
(`re < istart`) inserts `(1, rs, re)` before the current interval and
breaks, leaving the remaining intervals untouched; case 2b (`rs > iend`)
keeps the interval and continues; case 2c merges in place, replacing the
interval by `(n+1, min rs istart, max re iend)` (Python's
`sorted([rs, istart])[0]` and `sorted([re, iend])[1]`), and continues with
`insert_done = True`.  When the scan falls off the end, `(1, rs, re)` is
appended iff `insert_done` is still false. -/
def insert_scan (rs re : Int) : List CoverageInterval → Bool → List CoverageInterval
  | [], ins => if ins then [] else [⟨1, rs, re⟩]
  | iv :: rest, ins =>
    if re < iv.istart then ⟨1, rs, re⟩ :: iv :: rest
    else if rs > iv.iend then iv :: insert_scan rs re rest ins
    else ⟨iv.count + 1, min rs iv.istart, max re iv.iend⟩ :: insert_scan rs re rest true

/-- `add_read_coverage(pdict, key, rs, re)`, viewed at a single key.  The
argument is `pdict[key]` before the call (`none` when `key not in pdict`);
the result is the stored list after the call together with the returned
pair `(n_reads, covered_bp)`.  In the fresh-key case the Python returns
`(1, re - rs + 1)` directly; otherwise it runs the insertion loop and then
recomputes both totals by summing over the whole updated list. -/
def add_read_coverage (stored : Option (List CoverageInterval)) (rs re : Int) :
    List CoverageInterval × Int × Int :=
  match stored with
  | none => ([⟨1, rs, re⟩], 1, re - rs + 1)
  | some interval_list =>
    let l' := insert_scan rs re interval_list false
    (l', totalReads l', totalBp l')

/-- The read-name normalization in `main`: `re.match("(.+)__[12]$", ref_read)`
then `re.match("(.+)\/[12]$", ref_read)`, each stripping the matched suffix
when a nonempty prefix precedes it (the regexes require `.+` before the
suffix), otherwise the name is returned unchanged.  Modelled by matching
on the reversed character list; read names come from a tab-split SAM field
and contain no newline, so `.` matches every prefix character. -/
def strip_read_name (s : String) : String :=
  match s.data.reverse with
  | '1' :: '_' :: '_' :: c :: cs => String.mk ((c :: cs).reverse)
  | '2' :: '_' :: '_' :: c :: cs => String.mk ((c :: cs).reverse)
  | '1' :: '/' :: c :: cs => String.mk ((c :: cs).reverse)
  | '2' :: '/' :: c :: cs => String.mk ((c :: cs).reverse)
  | _ => s

/-- Python's `<` on two strings, character by character on code points:
lexicographic comparison where a proper prefix is smaller. -/
def pyStrLtAux : List Char → List Char → Bool
  | [], [] => false
  | [], _ :: _ => true
  | _ :: _, [] => false
  | a :: as, b :: bs =>
    if a < b then true else if b < a then false else pyStrLtAux as bs

/-- Python's `s1 < s2` on strings, applied to the character data. -/
def pyStrLt (a b : String) : Bool :=
  pyStrLtAux a.data b.data

/-- The composite pair key of `main`:
`transcripts = sorted([ref_transcript, other_transcript])` followed by
`transcripts[0] + ":" + transcripts[1]`.  Python's two-element `sorted`
swaps exactly when the second element is strictly smaller. -/
def makeKey (a b : String) : String :=
  if pyStrLt b a then b ++ ":" ++ a else a ++ ":" ++ b

/-- One decoded alignment event: the fields of a non-header SAM line that
`main` consumes.  `rlen` is the reference span length already summed from
the CIGAR string (`M=XDN` operations); `main` computes
`rend = rstart + rlen - 1`. -/
structure Event where
  readId : String
  refName : String
  mateRefName : String
  rstart : Int
  rlen : Int
deriving DecidableEq, Repr

/-- The two CLI parameters the selection test uses. -/
structure Config where
  min_bp_coverage : Int
  min_mate_pair_count : Int
deriving DecidableEq, Repr

/-- The mutable state of `main`'s loop: the `pairings` dict (association
list in Python dict order), the key set of `selected_pairings`, the key
set of `reads_used`, and the sequence of pair keys printed so far. -/
structure DriverState where
  pairings : List (String × List CoverageInterval)
  selected : List String
  reads_used : List String
  output : List String
deriving DecidableEq, Repr

/-- Python dict assignment `d[k] = v`: update the entry in place if the
key is present, otherwise append the new binding at the end. -/
def dictInsert (l : List (String × List CoverageInterval)) (k : String)
    (v : List CoverageInterval) : List (String × List CoverageInterval) :=
  match l with
  | [] => [(k, v)]
  | (k', v') :: rest =>
    if k' = k then (k, v) :: rest else (k', v') :: dictInsert rest k v

/-- Python `d.pop(k, None)`: drop the binding for `k` when present. -/
def dictErase (l : List (String × List CoverageInterval)) (k : String) :
    List (String × List CoverageInterval) :=
  match l with
  | [] => []
  | (k', v') :: rest =>
    if k' = k then rest else (k', v') :: dictErase rest k

/-- The empty loop state at the top of `main`. -/
def initState : DriverState := ⟨[], [], [], []⟩

/-- The body of `main`'s per-line loop, after decoding, for one event:
discard when the mate is unmapped (`*`) or on the same transcript (`=`);
build the composite key; discard when the pair was already selected;
normalize the read name and discard when `key ++ ":" ++ name` was already
used; otherwise fold the span into `pairings` via `add_read_coverage` and
either select the pair (print it, record it in `selected_pairings`, pop
its `pairings` entry) or record the read in `reads_used`. -/
def step (cfg : Config) (st : DriverState) (ev : Event) : DriverState :=
  if ev.mateRefName = "*" then st
  else if ev.mateRefName = "=" then st
  else
    let key := makeKey ev.refName ev.mateRefName
    if key ∈ st.selected then st
    else
      let rkey := key ++ ":" ++ strip_read_name ev.readId
      if rkey ∈ st.reads_used then st
      else
        let rend := ev.rstart + ev.rlen - 1
        let r := add_read_coverage (List.lookup key st.pairings) ev.rstart rend
        if r.2.1 ≥ cfg.min_mate_pair_count ∧ r.2.2 ≥ cfg.min_bp_coverage then
          ⟨dictErase st.pairings key, key :: st.selected, st.reads_used,
            st.output ++ [key]⟩
        else
          ⟨dictInsert st.pairings key r.1, st.selected, rkey :: st.reads_used,
            st.output⟩

/-- `main`'s loop over a stream of decoded events. -/
def run (cfg : Config) (st : DriverState) (evs : List Event) : DriverState :=
  List.foldl (step cfg) st evs
/-- The sequence of `covered_bp` values returned by consecutive
`add_read_coverage` calls on one pair key, starting from the given stored
list and folding the spans in order. -/
def foldOutputs : Option (List CoverageInterval) → List (Int × Int) → List Int
  | _, [] => []
  | stored, (rs, re) :: rest =>
    let r := add_read_coverage stored rs re
    r.2.2 :: foldOutputs (some r.1) rest

/-- Invariant of `main`'s loop state: printed keys are distinct, a key is
in `selected_pairings` exactly when it has been printed, a selected key
has no `pairings` entry, and the `pairings` dict has distinct keys. -/
def SelInv (st : DriverState) : Prop :=
  st.output.Nodup ∧
  (∀ k, k ∈ st.selected ↔ k ∈ st.output) ∧
  (∀ k, k ∈ st.selected → List.lookup k st.pairings = none) ∧
  (st.pairings.map Prod.fst).Nodup

/-- First event of the disjoint-accumulation scenario: span `(10, 50)`. -/
def eventD1 : Event := ⟨"r1__1", "A", "B", 10, 41⟩

/-- Second event of the disjoint-accumulation scenario: span `(60, 100)`. -/
def eventD2 : Event := ⟨"r2__1", "A", "B", 60, 41⟩

/-- A configuration whose thresholds are never met in the small
read-dedup scenarios below. -/
def cfgNoSelect : Config := ⟨250, 100⟩

/-- Read-dedup scenario: first mate of read `r` against pair `A:B`,
span `(10, 20)`. -/
def eventF1 : Event := ⟨"r__1", "A", "B", 10, 11⟩

/-- Read-dedup scenario: second mate of read `r` against pair `A:B`,
span `(30, 40)`. -/
def eventF2 : Event := ⟨"r__2", "A", "B", 30, 11⟩

/-- Read-dedup scenario: second mate of read `r` against the different
pair `A:C`. -/
def eventF2c : Event := ⟨"r__2", "A", "C", 30, 11⟩

/-- Read-dedup scenario: a genuinely different read `s` against pair
`A:B`, span `(30, 40)`. -/
def eventF3 : Event := ⟨"s/1", "A", "B", 30, 11⟩

/-- The composite key computed for an event in `main`'s loop. -/
def eventKey (ev : Event) : String := makeKey ev.refName ev.mateRefName

/-- The `reads_used` key `key + ":" + ref_read_name` for an event. -/
def eventRkey (ev : Event) : String :=
  eventKey ev ++ ":" ++ strip_read_name ev.readId

/-- `rend = rstart + rlen - 1` as computed in `main`. -/
def eventEnd (ev : Event) : Int := ev.rstart + ev.rlen - 1

/-- The `add_read_coverage` result for an event against the current
`pairings` dict. -/
def foldResult (st : DriverState) (ev : Event) :
    List CoverageInterval × Int × Int :=
  add_read_coverage (List.lookup (eventKey ev) st.pairings) ev.rstart (eventEnd ev)

/-- The selection test of `main`:
`n_reads >= args.min_mate_pair_count and covered_bp >= args.min_bp_coverage`. -/
def meetsThresholds (cfg : Config) (r : List CoverageInterval × Int × Int) : Prop :=
  r.2.1 ≥ cfg.min_mate_pair_count ∧ r.2.2 ≥ cfg.min_bp_coverage

instance (cfg : Config) (r : List CoverageInterval × Int × Int) :
    Decidable (meetsThresholds cfg r) := by
  unfold meetsThresholds
  infer_instance


lemma add_read_coverage_totals (stored : Option (List CoverageInterval)) (rs re : Int) :
    (add_read_coverage stored rs re).2 =
      (totalReads (add_read_coverage stored rs re).1,
       totalBp (add_read_coverage stored rs re).1) := by
  cases stored with
  | none => simp [add_read_coverage, totalReads, totalBp]
  | some il => rfl

lemma totalBp_insert_scan_ge (rs re : Int) (h : rs ≤ re + 1) :
    ∀ (l : List CoverageInterval) (ins : Bool),
      totalBp l ≤ totalBp (insert_scan rs re l ins) := by
  intro l
  induction l with
  | nil =>
    intro ins
    cases ins
    · simp only [insert_scan, if_neg Bool.false_ne_true, totalBp]
      omega
    · simp [insert_scan, totalBp]
  | cons iv rest ih =>
    intro ins
    simp only [insert_scan]
    split
    · simp only [totalBp]
      omega
    · split
      · simp only [totalBp]
        have := ih ins
        omega
      · simp only [totalBp]
        have := ih true
        have h1 := min_le_right rs iv.istart
        have h2 := le_max_right re iv.iend
        omega

lemma foldOutputs_chain (spans : List (Int × Int)) :
    ∀ l : List CoverageInterval, (∀ p ∈ spans, p.1 ≤ p.2 + 1) →
      List.Chain (· ≤ ·) (totalBp l) (foldOutputs (some l) spans) := by
  induction spans with
  | nil =>
    intro l _
    exact List.Chain.nil
  | cons p rest ih =>
    obtain ⟨rs, re⟩ := p
    intro l h
    simp only [foldOutputs, add_read_coverage]
    exact List.Chain.cons
      (totalBp_insert_scan_ge rs re (by have := h (rs, re) (by simp); omega) l false)
      (ih (insert_scan rs re l false) (fun q hq => h q (by simp [hq])))

/-- C1: on a fold call for a key whose interval list exists, the list is
scanned in ascending order and the three cases behave exactly as stated:
a span ending strictly before the current interval's start is inserted as
`(1, start, end)` immediately before it and the scan stops, leaving the
remaining intervals untouched; a span starting strictly after the current
interval's end leaves that interval unchanged and the scan continues; any
other span replaces the interval in place by
`(n+1, min(start,istart), max(end,iend))` and the scan continues; and an
exhausted scan that never inserted or merged appends `(1, start, end)` at
the end. -/
theorem add_read_coverage_scan_cases (rs re : Int) (iv : CoverageInterval)
    (rest l : List CoverageInterval) (ins : Bool) :
    (re < iv.istart →
      insert_scan rs re (iv :: rest) ins = ⟨1, rs, re⟩ :: iv :: rest)
  ∧ (¬ re < iv.istart → rs > iv.iend →
      insert_scan rs re (iv :: rest) ins = iv :: insert_scan rs re rest ins)
  ∧ (¬ re < iv.istart → ¬ rs > iv.iend →
      insert_scan rs re (iv :: rest) ins =
        ⟨iv.count + 1, min rs iv.istart, max re iv.iend⟩ :: insert_scan rs re rest true)
  ∧ insert_scan rs re [] false = [⟨1, rs, re⟩]
  ∧ insert_scan rs re [] true = []
  ∧ (add_read_coverage (some l) rs re).1 = insert_scan rs re l false := by
  refine ⟨fun h => ?_, fun h1 h2 => ?_, fun h1 h2 => ?_, rfl, rfl, rfl⟩ <;>
    simp [insert_scan, *]

/-- Witness for `add_read_coverage_scan_cases` at concrete inputs:
an insert before `(1, 30, 40)`, a skip past it, and a merge with it. -/
theorem add_read_coverage_scan_cases_witness :
    insert_scan 10 20 [⟨1, 30, 40⟩] false = [⟨1, 10, 20⟩, ⟨1, 30, 40⟩]
  ∧ insert_scan 50 60 [⟨1, 30, 40⟩] false = [⟨1, 30, 40⟩] ++ insert_scan 50 60 [] false
  ∧ insert_scan 35 60 [⟨1, 30, 40⟩] false = [⟨2, 30, 60⟩] ++ insert_scan 35 60 [] true :=
  ⟨(add_read_coverage_scan_cases 10 20 ⟨1, 30, 40⟩ [] [] false).1 (by decide),
   by
    have := (add_read_coverage_scan_cases 50 60 ⟨1, 30, 40⟩ [] [] false).2.1
      (by decide) (by decide)
    simpa using this,
   by
    have := (add_read_coverage_scan_cases 35 60 ⟨1, 30, 40⟩ [] [] false).2.2.1
      (by decide) (by decide)
    simpa using this⟩

/-- C2: every fold call returns exactly the pair
`(sum of read counts, sum of end - start + 1)` over the key's interval
list as it stands after the call; in particular a fresh pair folded with
`(10, 50)` yields `(1, 41)`, and folding `(10, 50)` then `(40, 80)` makes
the second call return `(2, 71)`. -/
theorem add_read_coverage_returns_totals :
    (∀ rs re : Int, add_read_coverage none rs re =
      ([⟨1, rs, re⟩], totalReads [⟨1, rs, re⟩], totalBp [⟨1, rs, re⟩]))
  ∧ (∀ (stored : Option (List CoverageInterval)) (rs re : Int),
      (add_read_coverage stored rs re).2 =
        (totalReads (add_read_coverage stored rs re).1,
         totalBp (add_read_coverage stored rs re).1))
  ∧ (add_read_coverage none 10 50).2 = (1, 41)
  ∧ (add_read_coverage (some (add_read_coverage none 10 50).1) 40 80).2 = (2, 71) := by
  refine ⟨fun rs re => ?_, add_read_coverage_totals, by decide, by decide⟩
  simp [add_read_coverage, totalReads, totalBp]

/-- C8: `add_read_coverage` is a total operation with no failure branch;
a degenerate span with `end < start` is accepted and inserted or merged
like any other span, and contributes its non-positive length
`end - start + 1` to the returned coverage total.  The final two
conjuncts evaluate it on degenerate spans `(10, 9)` (length 0) and
`(10, 5)` (length -4) against an existing interval of length 11. -/
theorem add_read_coverage_accepts_degenerate :
    (∀ (stored : Option (List CoverageInterval)) (rs re : Int),
      (add_read_coverage stored rs re).2 =
        (totalReads (add_read_coverage stored rs re).1,
         totalBp (add_read_coverage stored rs re).1))
  ∧ (∀ rs re : Int, add_read_coverage none rs re = ([⟨1, rs, re⟩], 1, re - rs + 1))
  ∧ add_read_coverage (some [⟨1, 20, 30⟩]) 10 9 = ([⟨1, 10, 9⟩, ⟨1, 20, 30⟩], 2, 11)
  ∧ add_read_coverage (some [⟨1, 20, 30⟩]) 10 5 = ([⟨1, 10, 5⟩, ⟨1, 20, 30⟩], 2, 7) :=
  ⟨add_read_coverage_totals, fun _ _ => rfl, by decide, by decide⟩

/-- C9: the returned total read count can exceed the number of alignments
folded: with intervals `(1,10,20)` and `(1,30,40)` present, folding
`(15, 25)` both merges into the first interval (raising its count) and
then inserts a fresh `(1, 15, 25)` before the second, so the third call
returns read count 4 after only three alignments. -/
theorem add_read_coverage_double_counts :
    add_read_coverage none 10 20 = ([⟨1, 10, 20⟩], 1, 11)
  ∧ add_read_coverage (some [⟨1, 10, 20⟩]) 30 40 =
      ([⟨1, 10, 20⟩, ⟨1, 30, 40⟩], 2, 22)
  ∧ add_read_coverage (some [⟨1, 10, 20⟩, ⟨1, 30, 40⟩]) 15 25 =
      ([⟨2, 10, 25⟩, ⟨1, 15, 25⟩, ⟨1, 30, 40⟩], 4, 38)
  ∧ totalReads [⟨2, 10, 25⟩, ⟨1, 15, 25⟩, ⟨1, 30, 40⟩] = 4 := by
  refine ⟨by decide, by decide, by decide, by decide⟩

/-- C10: over any sequence of fold calls on a single fresh pair key in
which every span has `end ≥ start - 1`, the sequence of returned
`covered_bp` values is non-decreasing. -/
theorem foldOutputs_monotone (spans : List (Int × Int))
    (h : ∀ p ∈ spans, p.1 ≤ p.2 + 1) :
    List.Chain' (· ≤ ·) (foldOutputs none spans) := by
  cases spans with
  | nil => simp [foldOutputs]
  | cons p rest =>
    obtain ⟨rs, re⟩ := p
    simp only [foldOutputs, add_read_coverage]
    show List.Chain (· ≤ ·) (re - rs + 1) (foldOutputs (some [⟨1, rs, re⟩]) rest)
    have hbp : re - rs + 1 = totalBp [⟨1, rs, re⟩] := by
      simp [totalBp]
    rw [hbp]
    exact foldOutputs_chain rest [⟨1, rs, re⟩] (fun q hq => h q (by simp [hq]))

/-- Witness for `foldOutputs_monotone`: the three-span sequence of the
double-count scenario, every span of non-negative length. -/
theorem foldOutputs_monotone_witness :
    List.Chain' (· ≤ ·) (foldOutputs none [(10, 20), (30, 40), (15, 25)]) :=
  foldOutputs_monotone [(10, 20), (30, 40), (15, 25)] (by decide)

lemma pyStrLtAux_iff : ∀ as bs : List Char,
    pyStrLtAux as bs = true ↔ List.Lex (· < ·) as bs := by
  intro as
  induction as with
  | nil =>
    intro bs
    cases bs with
    | nil =>
      constructor
      · intro h
        simp [pyStrLtAux] at h
      · intro h
        cases h
    | cons b bs =>
      constructor
      · intro _
        exact List.Lex.nil
      · intro _
        rfl
  | cons a as ih =>
    intro bs
    cases bs with
    | nil =>
      constructor
      · intro h
        simp [pyStrLtAux] at h
      · intro h
        cases h
    | cons b bs =>
      simp only [pyStrLtAux]
      by_cases hab : a < b
      · simp only [if_pos hab]
        exact ⟨fun _ => List.Lex.rel hab, fun _ => trivial⟩
      · simp only [if_neg hab]
        by_cases hba : b < a
        · simp only [if_pos hba]
          constructor
          · intro h
            simp at h
          · intro h
            cases h with
            | cons h' => exact absurd hba (lt_irrefl _)
            | rel h' => exact absurd h' hab
        · simp only [if_neg hba]
          have hab2 : a = b := le_antisymm (le_of_not_lt hba) (le_of_not_lt hab)
          subst hab2
          rw [ih bs]
          constructor
          · intro h
            exact List.Lex.cons h
          · intro h
            cases h with
            | cons h' => exact h'
            | rel h' => exact absurd h' hab

lemma pyStrLt_iff (a b : String) : pyStrLt a b = true ↔ a < b := by
  rw [String.lt_iff_toList_lt]
  exact pyStrLtAux_iff a.data b.data

lemma makeKey_eq_min_max (a b : String) :
    makeKey a b = min a b ++ ":" ++ max a b := by
  unfold makeKey
  by_cases h : pyStrLt b a = true
  · have hba : b < a := (pyStrLt_iff b a).1 h
    rw [if_pos h, min_eq_right hba.le, max_eq_left hba.le]
  · have hba : ¬ b < a := fun hc => h ((pyStrLt_iff b a).2 hc)
    have hab : a ≤ b := le_of_not_lt hba
    rw [if_neg h, min_eq_left hab, max_eq_right hab]

/-- C5: the composite pair key is symmetric in the two transcript names
and always equals the lexicographically smaller name, then `":"`, then
the larger; consequently an event `(refName = A, mateRefName = B)` and an
event `(refName = B, mateRefName = A)` are processed identically by the
driver (same key, hence same pair state), whenever neither name is the
sentinel `"*"` or `"="`. -/
theorem makeKey_symmetric (a b : String) :
    makeKey a b = makeKey b a
  ∧ makeKey a b = min a b ++ ":" ++ max a b
  ∧ (∀ (cfg : Config) (st : DriverState) (qn : String) (rs rl : Int),
      a ≠ "*" → a ≠ "=" → b ≠ "*" → b ≠ "=" →
      step cfg st ⟨qn, a, b, rs, rl⟩ = step cfg st ⟨qn, b, a, rs, rl⟩) := by
  have hk : makeKey a b = makeKey b a := by
    rw [makeKey_eq_min_max, makeKey_eq_min_max, min_comm, max_comm]
  refine ⟨hk, makeKey_eq_min_max a b, fun cfg st qn rs rl h1 h2 h3 h4 => ?_⟩
  simp [step, h1, h2, h3, h4, hk]

/-- Witness for `makeKey_symmetric` at the names `"A"` and `"B"` and a
concrete driver configuration and state. -/
theorem makeKey_symmetric_witness :
    makeKey "A" "B" = makeKey "B" "A"
  ∧ step ⟨250, 2⟩ initState ⟨"q__1", "A", "B", 1, 5⟩
      = step ⟨250, 2⟩ initState ⟨"q__1", "B", "A", 1, 5⟩ :=
  ⟨(makeKey_symmetric "A" "B").1,
   (makeKey_symmetric "A" "B").2.2 ⟨250, 2⟩ initState "q__1" 1 5
     (by decide) (by decide) (by decide) (by decide)⟩

lemma exists_rev_cons (p : String) (hp : p ≠ "") :
    ∃ c cs, p.data.reverse = c :: cs := by
  have hd : p.data ≠ [] := by
    intro h
    exact hp (String.ext (h.trans rfl))
  cases hrev : p.data.reverse with
  | nil => exact absurd (List.reverse_eq_nil_iff.mp hrev) hd
  | cons c cs => exact ⟨c, cs, rfl⟩

lemma strip_read_name_append (p : String) (hp : p ≠ "") :
    strip_read_name (p ++ "__1") = p ∧ strip_read_name (p ++ "__2") = p ∧
    strip_read_name (p ++ "/1") = p ∧ strip_read_name (p ++ "/2") = p := by
  obtain ⟨c, cs, hrev⟩ := exists_rev_cons p hp
  have hmk : (c :: cs).reverse = p.data := by rw [← hrev, List.reverse_reverse]
  refine ⟨?_, ?_, ?_, ?_⟩
  · have h1 : (p ++ "__1").data.reverse = '1' :: '_' :: '_' :: c :: cs := by
      rw [String.data_append]
      show (p.data ++ ['_', '_', '1']).reverse = _
      simp [List.reverse_append, hrev]
    unfold strip_read_name
    rw [h1]
    show String.mk ((c :: cs).reverse) = p
    rw [hmk]
  · have h1 : (p ++ "__2").data.reverse = '2' :: '_' :: '_' :: c :: cs := by
      rw [String.data_append]
      show (p.data ++ ['_', '_', '2']).reverse = _
      simp [List.reverse_append, hrev]
    unfold strip_read_name
    rw [h1]
    show String.mk ((c :: cs).reverse) = p
    rw [hmk]
  · have h1 : (p ++ "/1").data.reverse = '1' :: '/' :: c :: cs := by
      rw [String.data_append]
      show (p.data ++ ['/', '1']).reverse = _
      simp [List.reverse_append, hrev]
    unfold strip_read_name
    rw [h1]
    show String.mk ((c :: cs).reverse) = p
    rw [hmk]
  · have h1 : (p ++ "/2").data.reverse = '2' :: '/' :: c :: cs := by
      rw [String.data_append]
      show (p.data ++ ['/', '2']).reverse = _
      simp [List.reverse_append, hrev]
    unfold strip_read_name
    rw [h1]
    show String.mk ((c :: cs).reverse) = p
    rw [hmk]

lemma strip_read_name_cases (t : String) :
    strip_read_name t = t ∨
    ∃ p sfx, p ≠ "" ∧ sfx ∈ (["__1", "__2", "/1", "/2"] : List String) ∧
      t = p ++ sfx ∧ strip_read_name t = p := by
  unfold strip_read_name
  split
  next c cs heq =>
    right
    refine ⟨String.mk ((c :: cs).reverse), "__1", ?_, by simp, ?_, rfl⟩
    · simp [String.ext_iff]
    · apply String.ext
      rw [String.data_append]
      show t.data = (c :: cs).reverse ++ ['_', '_', '1']
      have h2 : t.data = t.data.reverse.reverse := by rw [List.reverse_reverse]
      rw [h2, heq]
      simp
  next c cs heq =>
    right
    refine ⟨String.mk ((c :: cs).reverse), "__2", ?_, by simp, ?_, rfl⟩
    · simp [String.ext_iff]
    · apply String.ext
      rw [String.data_append]
      show t.data = (c :: cs).reverse ++ ['_', '_', '2']
      have h2 : t.data = t.data.reverse.reverse := by rw [List.reverse_reverse]
      rw [h2, heq]
      simp
  next c cs heq =>
    right
    refine ⟨String.mk ((c :: cs).reverse), "/1", ?_, by simp, ?_, rfl⟩
    · simp [String.ext_iff]
    · apply String.ext
      rw [String.data_append]
      show t.data = (c :: cs).reverse ++ ['/', '1']
      have h2 : t.data = t.data.reverse.reverse := by rw [List.reverse_reverse]
      rw [h2, heq]
      simp
  next c cs heq =>
    right
    refine ⟨String.mk ((c :: cs).reverse), "/2", ?_, by simp, ?_, rfl⟩
    · simp [String.ext_iff]
    · apply String.ext
      rw [String.data_append]
      show t.data = (c :: cs).reverse ++ ['/', '2']
      have h2 : t.data = t.data.reverse.reverse := by rw [List.reverse_reverse]
      rw [h2, heq]
      simp
  next =>
    left
    rfl

/-- C7 (counterexample): the claim that the normalizer strips every
trailing mate-direction suffix and returns the remaining prefix is false
at the identifier `"/1"`: the prefix would be empty, but the code's
regexes require at least one character before the suffix, so `"/1"` is
returned unchanged rather than as `""`. -/
theorem strip_read_name_counterexample :
    ¬ ∀ p sfx : String, sfx ∈ (["__1", "__2", "/1", "/2"] : List String) →
        strip_read_name (p ++ sfx) = p := by
  intro h
  exact absurd (h "" "/1" (by decide)) (by decide)

/-- C7 (amended): the normalizer strips a single trailing mate-direction
suffix `/1`, `/2`, `__1` or `__2` whenever a nonempty prefix precedes it,
returning that prefix; every identifier is either returned unchanged or
is such a nonempty prefix plus suffix and maps to the prefix; and two
identifiers sharing a nonempty base and differing only in the suffix map
to the same base name. -/
theorem strip_read_name_spec :
    (∀ p sfx : String, p ≠ "" → sfx ∈ (["__1", "__2", "/1", "/2"] : List String) →
      strip_read_name (p ++ sfx) = p)
  ∧ (∀ t : String, strip_read_name t = t ∨
      ∃ p sfx, p ≠ "" ∧ sfx ∈ (["__1", "__2", "/1", "/2"] : List String) ∧
        t = p ++ sfx ∧ strip_read_name t = p)
  ∧ (∀ p s1 s2 : String, p ≠ "" →
      s1 ∈ (["__1", "__2", "/1", "/2"] : List String) →
      s2 ∈ (["__1", "__2", "/1", "/2"] : List String) →
      strip_read_name (p ++ s1) = strip_read_name (p ++ s2)) := by
  have key : ∀ p sfx : String, p ≠ "" →
      sfx ∈ (["__1", "__2", "/1", "/2"] : List String) →
      strip_read_name (p ++ sfx) = p := by
    intro p sfx hp hs
    have h4 := strip_read_name_append p hp
    simp only [List.mem_cons, List.mem_singleton, List.not_mem_nil, or_false] at hs
    rcases hs with h | h | h | h <;> subst h
    · exact h4.1
    · exact h4.2.1
    · exact h4.2.2.1
    · exact h4.2.2.2
  refine ⟨key, strip_read_name_cases, fun p s1 s2 hp h1 h2 => ?_⟩
  rw [key p s1 hp h1, key p s2 hp h2]

/-- Witness for `strip_read_name_spec` at the base name `"HWI"` with the
suffixes `"__1"` and `"/2"`. -/
theorem strip_read_name_spec_witness :
    strip_read_name ("HWI" ++ "__1") = "HWI"
  ∧ strip_read_name ("HWI" ++ "__1") = strip_read_name ("HWI" ++ "/2") :=
  ⟨strip_read_name_spec.1 "HWI" "__1" (by decide) (by decide),
   strip_read_name_spec.2.2 "HWI" "__1" "/2" (by decide) (by decide) (by decide)⟩

lemma lookup_eq_none_of_not_mem (l : List (String × List CoverageInterval))
    (x : String) (h : x ∉ l.map Prod.fst) : List.lookup x l = none := by
  induction l with
  | nil => rfl
  | cons p rest ih =>
    obtain ⟨k', v'⟩ := p
    simp only [List.map_cons, List.mem_cons] at h
    push_neg at h
    simp [List.lookup, beq_eq_false_iff_ne.mpr h.1, ih h.2]

lemma lookup_dictInsert_ne (l : List (String × List CoverageInterval))
    (k x : String) (v : List CoverageInterval) (h : x ≠ k) :
    List.lookup x (dictInsert l k v) = List.lookup x l := by
  induction l with
  | nil => simp [dictInsert, List.lookup, beq_eq_false_iff_ne.mpr h]
  | cons p rest ih =>
    obtain ⟨k', v'⟩ := p
    simp only [dictInsert]
    split
    next hk =>
      subst hk
      simp [List.lookup, beq_eq_false_iff_ne.mpr h]
    next hk =>
      by_cases hx : x = k'
      · simp [List.lookup, beq_iff_eq.mpr hx]
      · simp [List.lookup, beq_eq_false_iff_ne.mpr hx, ih]

lemma lookup_dictErase_ne (l : List (String × List CoverageInterval))
    (k x : String) (h : x ≠ k) :
    List.lookup x (dictErase l k) = List.lookup x l := by
  induction l with
  | nil => rfl
  | cons p rest ih =>
    obtain ⟨k', v'⟩ := p
    simp only [dictErase]
    split
    next hk =>
      subst hk
      simp [List.lookup, beq_eq_false_iff_ne.mpr h]
    next hk =>
      by_cases hx : x = k'
      · simp [List.lookup, beq_iff_eq.mpr hx]
      · simp [List.lookup, beq_eq_false_iff_ne.mpr hx, ih]

lemma lookup_dictErase_self (l : List (String × List CoverageInterval))
    (k : String) (h : (l.map Prod.fst).Nodup) :
    List.lookup k (dictErase l k) = none := by
  induction l with
  | nil => rfl
  | cons p rest ih =>
    obtain ⟨k', v'⟩ := p
    simp only [List.map_cons, List.nodup_cons] at h
    simp only [dictErase]
    split
    next hk =>
      subst hk
      exact lookup_eq_none_of_not_mem rest k' h.1
    next hk =>
      have hke : k ≠ k' := fun hc => hk hc.symm
      simp [List.lookup, beq_eq_false_iff_ne.mpr hke, ih h.2]

lemma mem_keys_dictInsert (l : List (String × List CoverageInterval))
    (k x : String) (v : List CoverageInterval) :
    x ∈ (dictInsert l k v).map Prod.fst ↔ x ∈ l.map Prod.fst ∨ x = k := by
  induction l with
  | nil => simp [dictInsert]
  | cons p rest ih =>
    obtain ⟨k', v'⟩ := p
    simp only [dictInsert]
    split
    next hk =>
      subst hk
      simp only [List.map_cons, List.mem_cons]
      tauto
    next hk =>
      simp only [List.map_cons, List.mem_cons, ih]
      tauto

lemma keys_nodup_dictInsert (l : List (String × List CoverageInterval))
    (k : String) (v : List CoverageInterval) (h : (l.map Prod.fst).Nodup) :
    ((dictInsert l k v).map Prod.fst).Nodup := by
  induction l with
  | nil => simp [dictInsert]
  | cons p rest ih =>
    obtain ⟨k', v'⟩ := p
    simp only [List.map_cons, List.nodup_cons] at h
    simp only [dictInsert]
    split
    next hk =>
      subst hk
      rw [List.map_cons, List.nodup_cons]
      exact ⟨h.1, h.2⟩
    next hk =>
      rw [List.map_cons, List.nodup_cons]
      refine ⟨?_, ih h.2⟩
      rw [mem_keys_dictInsert]
      push_neg
      exact ⟨h.1, hk⟩

lemma dictErase_sublist (l : List (String × List CoverageInterval)) (k : String) :
    List.Sublist (dictErase l k) l := by
  induction l with
  | nil => exact List.Sublist.refl []
  | cons p rest ih =>
    obtain ⟨k', v'⟩ := p
    simp only [dictErase]
    split
    · exact List.sublist_cons_self _ _
    · exact ih.cons₂ _

lemma keys_nodup_dictErase (l : List (String × List CoverageInterval))
    (k : String) (h : (l.map Prod.fst).Nodup) :
    ((dictErase l k).map Prod.fst).Nodup :=
  h.sublist (List.Sublist.map Prod.fst (dictErase_sublist l k))

lemma step_mate_star (cfg : Config) (st : DriverState) (ev : Event)
    (h : ev.mateRefName = "*") : step cfg st ev = st := by
  simp [step, h]

lemma step_mate_same (cfg : Config) (st : DriverState) (ev : Event)
    (h : ev.mateRefName = "=") : step cfg st ev = st := by
  simp [step, h]

lemma step_selected_mem (cfg : Config) (st : DriverState) (ev : Event)
    (h1 : ev.mateRefName ≠ "*") (h2 : ev.mateRefName ≠ "=")
    (h3 : eventKey ev ∈ st.selected) : step cfg st ev = st := by
  simp [step, eventKey, h1, h2] at h3 ⊢
  simp [h3]

lemma step_read_used (cfg : Config) (st : DriverState) (ev : Event)
    (h1 : ev.mateRefName ≠ "*") (h2 : ev.mateRefName ≠ "=")
    (h3 : eventKey ev ∉ st.selected) (h4 : eventRkey ev ∈ st.reads_used) :
    step cfg st ev = st := by
  simp only [eventKey] at h3
  simp only [eventRkey, eventKey] at h4
  simp [step, h1, h2, h3, h4]

lemma step_qualifying (cfg : Config) (st : DriverState) (ev : Event)
    (h1 : ev.mateRefName ≠ "*") (h2 : ev.mateRefName ≠ "=")
    (h3 : eventKey ev ∉ st.selected) (h4 : eventRkey ev ∉ st.reads_used) :
    step cfg st ev =
      if meetsThresholds cfg (foldResult st ev) then
        ⟨dictErase st.pairings (eventKey ev), eventKey ev :: st.selected,
          st.reads_used, st.output ++ [eventKey ev]⟩
      else
        ⟨dictInsert st.pairings (eventKey ev) (foldResult st ev).1, st.selected,
          eventRkey ev :: st.reads_used, st.output⟩ := by
  simp only [eventKey] at h3
  simp only [eventRkey, eventKey] at h4
  simp [step, meetsThresholds, foldResult, eventKey, eventRkey, eventEnd, h1, h2, h3, h4]

lemma initState_inv : SelInv initState := by
  refine ⟨List.nodup_nil, fun k => ?_, fun k hk => ?_, List.nodup_nil⟩
  · simp [initState]
  · simp [initState] at hk

lemma step_preserves_inv (cfg : Config) (st : DriverState) (ev : Event)
    (h : SelInv st) : SelInv (step cfg st ev) := by
  by_cases h1 : ev.mateRefName = "*"
  · rw [step_mate_star cfg st ev h1]
    exact h
  by_cases h2 : ev.mateRefName = "="
  · rw [step_mate_same cfg st ev h2]
    exact h
  by_cases h3 : eventKey ev ∈ st.selected
  · rw [step_selected_mem cfg st ev h1 h2 h3]
    exact h
  by_cases h4 : eventRkey ev ∈ st.reads_used
  · rw [step_read_used cfg st ev h1 h2 h3 h4]
    exact h
  rw [step_qualifying cfg st ev h1 h2 h3 h4]
  obtain ⟨ho, hsel, hlk, hkeys⟩ := h
  split
  · have hko : eventKey ev ∉ st.output := fun hc => h3 ((hsel _).mpr hc)
    refine ⟨?_, fun k => ?_, fun k hk => ?_, ?_⟩
    · simp only [List.nodup_append, List.nodup_singleton, true_and]
      exact ⟨ho, by simpa using hko⟩
    · simp only [List.mem_cons, List.mem_append, List.mem_singleton, hsel k]
      tauto
    · rcases List.mem_cons.mp hk with hk' | hk'
      · subst hk'
        exact lookup_dictErase_self _ _ hkeys
      · by_cases hne : k = eventKey ev
        · subst hne
          exact lookup_dictErase_self _ _ hkeys
        · rw [lookup_dictErase_ne _ _ _ hne]
          exact hlk k hk'
    · exact keys_nodup_dictErase _ _ hkeys
  · refine ⟨ho, hsel, fun k hk => ?_, keys_nodup_dictInsert _ _ _ hkeys⟩
    have hne : k ≠ eventKey ev := fun hc => h3 (hc ▸ hk)
    rw [lookup_dictInsert_ne _ _ _ _ hne]
    exact hlk k hk

lemma run_preserves_inv (cfg : Config) (evs : List Event) :
    ∀ st : DriverState, SelInv st → SelInv (run cfg st evs) := by
  induction evs with
  | nil => exact fun st h => h
  | cons ev rest ih =>
    intro st h
    exact ih (step cfg st ev) (step_preserves_inv cfg st ev h)

/-- C3: under the qualifying guards (mate mapped to a different
transcript, pair not yet selected, read not yet used), a step emits the
pair key exactly when the fold result meets both thresholds inclusively:
`n_reads >= min_mate_pair_count` and `covered_bp >= min_bp_coverage`.
With `min_mate_pair_count = 2` and `min_bp_coverage = 82`, folding the
disjoint spans `(10, 50)` then `(60, 100)` on one pair selects it on
exactly the second call (nothing is emitted after the first), while with
`min_bp_coverage = 83` nothing is ever emitted. -/
theorem selection_iff_thresholds :
    (∀ (cfg : Config) (st : DriverState) (ev : Event),
      ev.mateRefName ≠ "*" → ev.mateRefName ≠ "=" →
      eventKey ev ∉ st.selected → eventRkey ev ∉ st.reads_used →
      ((step cfg st ev).output = st.output ++ [eventKey ev] ↔
        meetsThresholds cfg (foldResult st ev)))
  ∧ (run ⟨82, 2⟩ initState [eventD1]).output = []
  ∧ (run ⟨82, 2⟩ initState [eventD1, eventD2]).output = ["A:B"]
  ∧ (run ⟨83, 2⟩ initState [eventD1, eventD2]).output = [] := by
  refine ⟨fun cfg st ev h1 h2 h3 h4 => ?_, by decide, by decide, by decide⟩
  rw [step_qualifying cfg st ev h1 h2 h3 h4]
  split
  next hm => exact ⟨fun _ => hm, fun _ => rfl⟩
  next hm =>
    constructor
    · intro hc
      have := congrArg List.length hc
      simp at this
    · intro hmeet
      exact absurd hmeet hm

/-- Witness for `selection_iff_thresholds`: the second disjoint event
against the state reached after the first, at thresholds `(82, 2)`. -/
theorem selection_iff_thresholds_witness :
    (step ⟨82, 2⟩ (run ⟨82, 2⟩ initState [eventD1]) eventD2).output =
        (run ⟨82, 2⟩ initState [eventD1]).output ++ [eventKey eventD2] ↔
      meetsThresholds ⟨82, 2⟩ (foldResult (run ⟨82, 2⟩ initState [eventD1]) eventD2) :=
  selection_iff_thresholds.1 ⟨82, 2⟩ (run ⟨82, 2⟩ initState [eventD1]) eventD2
    (by decide) (by decide) (by decide) (by decide)

/-- C4: over any event stream from the empty state, each pair key is
emitted at most once (the printed output has no duplicates), a key is in
`selected_pairings` exactly when it has been printed, a selected key's
`pairings` state is deleted and never recreated (its lookup is `none`),
and any event whose key is already selected leaves the state completely
unchanged — selected is a terminal state. -/
theorem selected_is_terminal (cfg : Config) (evs : List Event) :
    (run cfg initState evs).output.Nodup
  ∧ (∀ k, k ∈ (run cfg initState evs).selected ↔ k ∈ (run cfg initState evs).output)
  ∧ (∀ k, k ∈ (run cfg initState evs).selected →
      List.lookup k (run cfg initState evs).pairings = none)
  ∧ (∀ (st : DriverState) (ev : Event), ev.mateRefName ≠ "*" → ev.mateRefName ≠ "=" →
      eventKey ev ∈ st.selected → step cfg st ev = st) := by
  have h := run_preserves_inv cfg evs initState initState_inv
  exact ⟨h.1, h.2.1, h.2.2.1,
    fun st ev h1 h2 h3 => step_selected_mem cfg st ev h1 h2 h3⟩

/-- Witness for `selected_is_terminal`: after the disjoint-accumulation
run selects `"A:B"`, replaying the first event leaves the state
unchanged. -/
theorem selected_is_terminal_witness :
    (run ⟨82, 2⟩ initState [eventD1, eventD2]).output.Nodup
  ∧ step ⟨82, 2⟩ (run ⟨82, 2⟩ initState [eventD1, eventD2]) eventD1 =
      run ⟨82, 2⟩ initState [eventD1, eventD2] :=
  ⟨(selected_is_terminal ⟨82, 2⟩ [eventD1, eventD2]).1,
   (selected_is_terminal ⟨82, 2⟩ [eventD1, eventD2]).2.2.2
     (run ⟨82, 2⟩ initState [eventD1, eventD2]) eventD1
     (by decide) (by decide) (by decide)⟩

/-- C6: an event whose composite `key ++ ":" ++ base-read-name` is
already in `reads_used` is discarded before reaching the tracker (the
state is unchanged); distinct pair keys give distinct `reads_used`
entries for the same base name, so the same base name is tracked
independently per pair; concretely, the second mate `r__2` of pair
`A:B` contributes nothing after `r__1`, while the same base name against
pair `A:C` does contribute, and a genuinely different read `s/1` against
`A:B` contributes a second interval. -/
theorem read_dedup :
    (∀ (cfg : Config) (st : DriverState) (ev : Event),
      ev.mateRefName ≠ "*" → ev.mateRefName ≠ "=" →
      eventKey ev ∉ st.selected → eventRkey ev ∈ st.reads_used →
      step cfg st ev = st)
  ∧ (∀ k₁ k₂ n : String, k₁ ≠ k₂ → k₁ ++ ":" ++ n ≠ k₂ ++ ":" ++ n)
  ∧ run cfgNoSelect initState [eventF1, eventF2] = run cfgNoSelect initState [eventF1]
  ∧ List.lookup "A:B" (run cfgNoSelect initState [eventF1, eventF2, eventF3]).pairings
      = some [⟨1, 10, 20⟩, ⟨1, 30, 40⟩]
  ∧ List.lookup "A:C" (run cfgNoSelect initState [eventF1, eventF2c]).pairings
      = some [⟨1, 30, 40⟩] := by
  refine ⟨step_read_used, fun k₁ k₂ n h hc => ?_, by decide, by decide, by decide⟩
  apply h
  have hd := congrArg String.data hc
  simp only [String.data_append] at hd
  exact String.ext (List.append_cancel_right (List.append_cancel_right hd))

/-- Witness for `read_dedup`: the second mate of read `r` against the
state reached after its first mate, and the two concrete composite
keys. -/
theorem read_dedup_witness :
    step cfgNoSelect (run cfgNoSelect initState [eventF1]) eventF2 =
      run cfgNoSelect initState [eventF1]
  ∧ "A:B" ++ ":" ++ "r" ≠ "A:C" ++ ":" ++ "r" :=
  ⟨read_dedup.1 cfgNoSelect (run cfgNoSelect initState [eventF1]) eventF2
     (by decide) (by decide) (by decide) (by decide),
   read_dedup.2.1 "A:B" "A:C" "r" (by decide)⟩
